import Mathlib

/-!
Verification of the `faadibruno.py` library: integer-partition enumeration,
Faà di Bruno composition of derivative sequences, recursive inversion of a
truncated Taylor series, Taylor recentering and Horner evaluation.

All numeric computation is embedded over `ℚ` (the spec allows an exact
rational field as a drop-in numeric type).  Python generators are embedded
as the lists of their yielded values, in yield order.  The recursive
generators `partitions`/`partcounts` recurse on `n - i` with `i ≥ 1`; the
embedding uses an explicit fuel argument (structural recursion) with
`fuel = n`, which is enough fuel, and fuel-irrelevance is proved below.
Python list indexing `l[j]` is embedded as `List.getD l j 0`; every access
proved about below is in bounds, where the two semantics agree.
-/

namespace Faadibruno

/-- Source line 1: `from math import factorial as fac`. -/
def fac : ℕ → ℕ := Nat.factorial

/-- Source lines 3-11, `partitions(n, I=1)` with fuel added for structural
recursion:

    yield (n,)
    for i in range(I, n//2 + 1):
        for p in partitions(n-i, i):
            yield (i,) + p

For `I ≥ 1` every recursive call strictly decreases `n`, so `fuel = n`
suffices; the fuel-0 fallback returns the base yield only (for `n ≤ fuel`
and `I ≥ 1` it is never hit with a nonempty loop range). -/
def partitionsF : ℕ → ℕ → ℕ → List (List ℕ)
  | 0, n, _ => [[n]]
  | fuel+1, n, I =>
    [n] :: (List.range' I (n / 2 + 1 - I)).flatMap fun i =>
      (partitionsF fuel (n - i) i).map fun p => i :: p

/-- Source `partitions(n)` at the default minimum part `I = 1`. -/
def partitions (n : ℕ) : List (List ℕ) := partitionsF n n 1

/-- Source line 21: `p[i-1] += 1`, as a functional update (the index is in
bounds at every use site proved below, where `set`/`getD` agree with the
Python subscript). -/
def incAt (l : List ℕ) (j : ℕ) : List ℕ := l.set j (l.getD j 0 + 1)

/-- Source lines 13-22, `partcounts(n, I=1)` with fuel, as for
`partitionsF`:

    yield [0]*(n-1) + [1]
    for i in range(I, n//2+1):
        for p in partcounts(n-i, i):
            p += [0]*(i)
            p[i-1]+=1
            yield p
-/
def partcountsF : ℕ → ℕ → ℕ → List (List ℕ)
  | 0, n, _ => [List.replicate (n - 1) 0 ++ [1]]
  | fuel+1, n, I =>
    (List.replicate (n - 1) 0 ++ [1]) ::
      (List.range' I (n / 2 + 1 - I)).flatMap fun i =>
        (partcountsF fuel (n - i) i).map fun p =>
          incAt (p ++ List.replicate i 0) (i - 1)

/-- Source `partcounts(n)` at the default minimum part `I = 1`. -/
def partcounts (n : ℕ) : List (List ℕ) := partcountsF n n 1

/-- Source lines 40-46, `tayparts(n)`:

    for i in range(1, 1+n//2):
        for p in partcounts(n-i, i):
            p += [0]*(i-1)
            p[i-1]+=1
            yield p
-/
def tayparts (n : ℕ) : List (List ℕ) :=
  (List.range' 1 (n / 2)).flatMap fun i =>
    (partcountsF n (n - i) i).map fun p =>
      incAt (p ++ List.replicate (i - 1) 0) (i - 1)

/-- Source lines 34-36 (and identically lines 57-59; line 59 writes
`fac(i+1)` for line 36's `fac(1+i)`): the summand accumulated into `S` for
one partition-count vector `p`:

    P = fac(n) * f[sum(p)-1]
    for i in range(len(p)):
        P *= g[i]**p[i] / fac(p[i]) / fac(1+i)**p[i]
-/
def term (f g : List ℚ) (n : ℕ) (p : List ℕ) : ℚ :=
  (List.range p.length).foldl
    (fun P i =>
      P * ((g.getD i 0) ^ (p.getD i 0) / (fac (p.getD i 0) : ℚ) /
        ((fac (1 + i) : ℚ)) ^ (p.getD i 0)))
    ((fac n : ℚ) * f.getD (p.sum - 1) 0)

/-- Source lines 24-38, `faadibruno(f, g)`: for each `n = 1 .. len(f)`,
yield the sum of `term` over `partcounts(n)`. -/
def faadibruno (f g : List ℚ) : List ℚ :=
  (List.range' 1 f.length).map fun n => ((partcounts n).map (term f g n)).sum

/-- Source lines 55-60: the partial sum `S` accumulated over `tayparts(n)`
inside `_taylor_inverse`, for the current solved prefix `g`. -/
def invStep (f g : List ℚ) (n : ℕ) : ℚ := ((tayparts n).map (term f g n)).sum

/-- Source lines 48-62, `_taylor_inverse(f)`:

    g = [1/f[0]]
    for n in range(2, 1+len(f)):
        S = 0
        for p in tayparts(n): ...accumulate term...
        g.append(-S/f[0])
    return g
-/
def _taylor_inverse (f : List ℚ) : List ℚ :=
  (List.range' 2 (f.length - 1)).foldl
    (fun g n => g ++ [-(invStep f g n) / f.getD 0 0]) [1 / f.getD 0 0]

/-- The exception raised by Python when a division's denominator is zero
(`ZeroDivisionError`). -/
inductive PyError where
  | zeroDivision
deriving DecidableEq

/-- Source lines 48-62 with Python's fallible division made explicit.  The
first statement `g = [1/f[0]]` raises `ZeroDivisionError` iff `f[0] = 0`.
Once `f[0] ≠ 0`, every later division in the function divides by `f[0]` or
by a factorial (or a power of one), all nonzero, so no later statement can
raise: the run is error-free and computes `_taylor_inverse f`. -/
def _taylor_inverse_checked (f : List ℚ) : Except PyError (List ℚ) :=
  if f.getD 0 0 = 0 then Except.error PyError.zeroDivision
  else Except.ok (_taylor_inverse f)

/-- Source lines 72-84, `taylor_recenter(x, c, t)`:

    n=len(t)
    for k in range(n):
        S=0
        P=1
        for i in range(k+1, n):
            S+=t[i-1]*P
            P*=i*(x-c)/(i-k)
        S+=t[-1]*P
        yield S

The loop state is the pair `(S, P)`; `i - k` is a positive integer in the
loop, computed in `ℕ` and cast (as Python computes it in `int`). -/
def taylor_recenter (x c : ℚ) (t : List ℚ) : List ℚ :=
  (List.range t.length).map fun k =>
    let SP : ℚ × ℚ :=
      (List.range' (k + 1) (t.length - (k + 1))).foldl
        (fun SP i =>
          (SP.1 + t.getD (i - 1) 0 * SP.2,
           SP.2 * ((i : ℚ) * (x - c) / ((i - k : ℕ) : ℚ))))
        (0, 1)
    SP.1 + t.getD (t.length - 1) 0 * SP.2

/-- Source line 90: `derivs = [a*fac(i) for i, a in enumerate(t[1:])]`. -/
def taylor_inverse_derivs (t : List ℚ) : List ℚ :=
  (t.drop 1).enum.map fun ia => ia.2 * (fac ia.1 : ℚ)

/-- Source line 92: `G = [0]+[a/fac(i) for i, a in enumerate(g)]` with
`g = _taylor_inverse(derivs)`. -/
def taylor_inverse_G (t : List ℚ) : List ℚ :=
  0 :: ((_taylor_inverse (taylor_inverse_derivs t)).enum.map
    fun ia => ia.2 / (fac ia.1 : ℚ))

/-- Source lines 86-94, `taylor_inverse(t)`:

    derivs = [a*fac(i) for i, a in enumerate(t[1:])]
    g = _taylor_inverse(derivs)
    G = [0]+[a/fac(i) for i, a in enumerate(g)]
    F = list(taylor_recenter(0, derivs[0], G))
    return F
-/
def taylor_inverse (t : List ℚ) : List ℚ :=
  taylor_recenter 0 ((taylor_inverse_derivs t).getD 0 0) (taylor_inverse_G t)

/-- Source lines 96-101, `taylor(x, c, t)` (Horner evaluation):

    S = 0
    for i in reversed(t):
        S *= x-c
        S += i
    return S
-/
def taylor (x c : ℚ) (t : List ℚ) : ℚ :=
  t.reverse.foldl (fun S i => S * (x - c) + i) 0

/-- Source `partitions(n)` for an arbitrary integer argument.  For `n ≤ 0`
Python's `range(1, n//2 + 1)` is empty (floor division gives
`n//2 + 1 ≤ 1`), so the generator yields only the base `(n,)`. -/
def partitionsZ (n : ℤ) : List (List ℤ) :=
  if 0 < n then (partitions n.toNat).map (fun l => l.map fun x => (x : ℤ))
  else [[n]]

/-- Source `partcounts(n)` for an arbitrary integer argument.  For `n ≤ 0`
the loop range is empty as in `partitionsZ`, and the base yield
`[0]*(n-1) + [1]` is `[1]` because Python list repetition with a
non-positive count is empty. -/
def partcountsZ (n : ℤ) : List (List ℤ) :=
  if 0 < n then (partcounts n.toNat).map (fun l => l.map fun x => (x : ℤ))
  else [[1]]

/-! Specification-side definitions, written from the spec's formulas
(§4.2's Faà di Bruno term, §3's partition-count invariant, §4.4's
binomial Taylor-shift identity), to be compared with the source-side
definitions above. -/

/-- Spec §3: the partition-count weight `Σ (i+1)·vector[i]`. -/
def wt (p : List ℕ) : ℕ := ∑ i ∈ Finset.range p.length, (i + 1) * p.getD i 0

/-- The multiplicity vector (indexed `0 .. n-1`, index `i` counting the
part value `i+1`) of a mathematical partition of `n`. -/
def countVec (n : ℕ) (π : Nat.Partition n) : List ℕ :=
  (List.range n).map fun j => Multiset.count (j + 1) π.parts

/-- Spec §4.2: `term = n! · f[(Σp) − 1] · Π_i (g[i]^p[i] / p[i]! / (i+1)!^p[i])`,
stated as a product over all index positions of `p`. -/
def fdbTerm (f g : List ℚ) (n : ℕ) (p : List ℕ) : ℚ :=
  (fac n : ℚ) * f.getD (p.sum - 1) 0 *
    ∏ i ∈ Finset.range p.length,
      ((g.getD i 0) ^ (p.getD i 0) / (fac (p.getD i 0) : ℚ) /
        ((fac (1 + i) : ℚ)) ^ (p.getD i 0))

/-- Spec §4.2: the full Faà di Bruno sum of order `n`, over every
partition of `n` (equivalently, over every partition-count vector of `n`,
via multiplicity vectors). -/
def fdbSum (f g : List ℚ) (n : ℕ) : ℚ :=
  ∑ π : Nat.Partition n, fdbTerm f g n (countVec n π)

/-- Spec §4.4: the Taylor-shift identity for the `k`-th recentered
coefficient: `Σ_{j≥k} C(j,k) · t[j] · (x−c)^(j−k)` over the available
orders `j ≤ len t − 1`. -/
def recenterCoeff (x c : ℚ) (t : List ℚ) (k : ℕ) : ℚ :=
  ∑ j ∈ Finset.Icc k (t.length - 1),
    (Nat.choose j k : ℚ) * t.getD j 0 * (x - c) ^ (j - k)

/-- The multiplicity vector of length `n` of a part-list `l`: index `j`
counts the occurrences of the part value `j+1`. -/
def toVec (n : ℕ) (l : List ℕ) : List ℕ :=
  (List.range n).map fun j => l.count (j + 1)

/-- The canonical sorted part-list of a mathematical partition. -/
def sortedOf {n : ℕ} (π : Nat.Partition n) : List ℕ :=
  Multiset.sort (· ≤ ·) π.parts

/-- A part-list with positive parts summing to `n`, as a mathematical
partition. -/
def toPartition {n : ℕ} (l : List ℕ) (hpos : ∀ x ∈ l, 0 < x) (hsum : l.sum = n) :
    Nat.Partition n :=
  ⟨(l : Multiset ℕ), fun hx => hpos _ hx, by simpa using hsum⟩

/-- The state of `_taylor_inverse`'s list `g` after the loop has processed
`n = 2, ..., k+1`: `invG f 0` is the initial `[1/f[0]]`, and step `k+1`
appends the solved value of order `k+2`. -/
def invG (f : List ℚ) : ℕ → List ℚ
  | 0 => [1 / f.getD 0 0]
  | k+1 => invG f k ++ [-(invStep f (invG f k) (k + 2)) / f.getD 0 0]

/-- The running product `P` after the loop has processed the indices
`s, s+1, ..., s+d-1` (for output index `k`). -/
def w (x c : ℚ) (k s : ℕ) (d : ℕ) : ℚ :=
  ∏ m ∈ Finset.range d, (((s + m : ℕ) : ℚ) * (x - c) / (((s + m) - k : ℕ) : ℚ))

/-! Lemmas on the partition generators. -/

/-- Facts available for any index produced by the loop `range(I, n//2 + 1)`. -/
theorem mem_loopRange {n I i : ℕ} (hi : i ∈ List.range' I (n / 2 + 1 - I)) :
    I ≤ i ∧ i ≤ n / 2 ∧ 2 * i ≤ n := by
  rw [List.mem_range'_1] at hi
  omega

/-- With a positive minimum part, the generator for `n = 0` has an empty
loop range and yields only the base case. -/
theorem partitionsF_zero {fuel I : ℕ} (hI : 1 ≤ I) :
    partitionsF fuel 0 I = [[0]] := by
  cases fuel with
  | zero => rfl
  | succ fuel =>
    have h : 0 / 2 + 1 - I = 0 := by omega
    simp [partitionsF, h]

/-- The value of `partitionsF` does not depend on the fuel, provided the
fuel is at least `n` and the minimum part is positive. -/
theorem partitionsF_fuelIrrel :
    ∀ {fuel₁ fuel₂ n I : ℕ}, n ≤ fuel₁ → n ≤ fuel₂ → 1 ≤ I →
      partitionsF fuel₁ n I = partitionsF fuel₂ n I := by
  intro fuel₁
  induction fuel₁ with
  | zero =>
    intro fuel₂ n I h₁ h₂ hI
    have hn : n = 0 := by omega
    subst hn
    rw [partitionsF_zero hI, partitionsF_zero hI]
  | succ fuel ih =>
    intro fuel₂ n I h₁ h₂ hI
    cases fuel₂ with
    | zero =>
      have hn : n = 0 := by omega
      subst hn
      rw [partitionsF_zero hI, partitionsF_zero hI]
    | succ fuel₂ =>
      show ([n] :: _) = ([n] :: _)
      congr 1
      unfold List.flatMap
      congr 1
      apply List.map_congr_left
      intro i hi
      obtain ⟨hIi, hi2, hi3⟩ := mem_loopRange hi
      have h1i : 1 ≤ i := le_trans hI hIi
      rw [@ih fuel₂ (n - i) i (by omega) (by omega) h1i]

/-- Every list yielded by the partition generator is nonempty. -/
theorem partitionsF_ne_nil :
    ∀ {fuel n I : ℕ} {l : List ℕ}, l ∈ partitionsF fuel n I → l ≠ [] := by
  intro fuel
  induction fuel with
  | zero =>
    intro n I l hl
    simp only [partitionsF, List.mem_singleton] at hl
    subst hl
    simp
  | succ fuel ih =>
    intro n I l hl
    simp only [partitionsF, List.mem_cons, List.mem_flatMap, List.mem_map] at hl
    rcases hl with rfl | ⟨i, _, p, _, rfl⟩
    · simp
    · simp

/-- Characterization of the lists yielded by `partitions(n, I)` for
`1 ≤ n ≤ fuel` and `1 ≤ I`: the whole-`n` partition, plus every
non-decreasing list of parts that are all `≥ I`, with at least two parts,
summing to `n`. -/
theorem mem_partitionsF :
    ∀ {fuel n I : ℕ} (l : List ℕ), n ≤ fuel → 1 ≤ I → 1 ≤ n →
      (l ∈ partitionsF fuel n I ↔
        l = [n] ∨
          (l.Sorted (· ≤ ·) ∧ l.sum = n ∧ 2 ≤ l.length ∧ ∀ x ∈ l, I ≤ x)) := by
  intro fuel
  induction fuel with
  | zero =>
    intro n I l h₁ hI hn
    omega
  | succ fuel ih =>
    intro n I l h₁ hI hn
    simp only [partitionsF, List.mem_cons, List.mem_flatMap, List.mem_map]
    constructor
    · rintro (rfl | ⟨i, hi, p, hp, rfl⟩)
      · exact Or.inl rfl
      · obtain ⟨hIi, hi2, hi3⟩ := mem_loopRange hi
        have h1i : 1 ≤ i := le_trans hI hIi
        have hni : 1 ≤ n - i := by omega
        rcases ((@ih (n - i) i p (by omega) h1i hni).mp hp) with rfl | ⟨hs, hsum, hlen, hge⟩
        · refine Or.inr ⟨?_, ?_, by simp, ?_⟩
          · have hin : i ≤ n - i := by omega
            simp [List.sorted_cons, hin]
          · simp
            omega
          · intro x hx
            simp only [List.mem_cons, List.mem_singleton, List.not_mem_nil,
              or_false] at hx
            rcases hx with rfl | rfl
            · exact hIi
            · omega
        · refine Or.inr ⟨?_, by simp; omega, by simp; omega, ?_⟩
          · rw [List.sorted_cons]
            exact ⟨fun b hb => hge b hb, hs⟩
          · intro x hx
            rcases List.mem_cons.mp hx with rfl | hx
            · exact hIi
            · exact le_trans hIi (hge x hx)
    · rintro (rfl | ⟨hs, hsum, hlen, hge⟩)
      · exact Or.inl rfl
      · right
        cases l with
        | nil => simp at hlen
        | cons x rest =>
          have hrest : rest ≠ [] := by
            intro h
            subst h
            simp at hlen
          rw [List.sorted_cons] at hs
          obtain ⟨hx_le, hrest_sorted⟩ := hs
          have hxrest : x ≤ rest.sum := by
            obtain ⟨y, hy⟩ := List.exists_mem_of_ne_nil rest hrest
            exact le_trans (hx_le y hy) (List.le_sum_of_mem hy)
          have hsum' : x + rest.sum = n := by simpa using hsum
          have hIx : I ≤ x := hge x (by simp)
          have h1x : 1 ≤ x := le_trans hI hIx
          refine ⟨x, ?_, rest, ?_, rfl⟩
          · rw [List.mem_range'_1]
            omega
          · have hrn : 1 ≤ n - x := by omega
            rw [@ih (n - x) x rest (by omega) h1x hrn]
            rcases Nat.lt_or_ge rest.length 2 with hl2 | hl2
            · left
              cases rest with
              | nil => exact absurd rfl hrest
              | cons y t =>
                cases t with
                | nil =>
                  simp only [List.sum_cons, List.sum_nil, add_zero] at hsum'
                  have : y = n - x := by omega
                  rw [this]
                | cons z t => simp at hl2; omega
            · right
              exact ⟨hrest_sorted, by omega, hl2, fun y hy => hx_le y hy⟩

/-- The partition generator yields no duplicates. -/
theorem nodup_partitionsF :
    ∀ {fuel n I : ℕ}, n ≤ fuel → 1 ≤ I → (partitionsF fuel n I).Nodup := by
  intro fuel
  induction fuel with
  | zero => intro n I _ _; simp [partitionsF]
  | succ fuel ih =>
    intro n I h₁ hI
    rw [partitionsF, List.nodup_cons]
    constructor
    · intro hmem
      rcases List.mem_flatMap.mp hmem with ⟨i, hi, hp⟩
      rcases List.mem_map.mp hp with ⟨p, hpmem, hpeq⟩
      have : p = [] := by
        have := congrArg List.length hpeq
        simpa using this
      exact partitionsF_ne_nil hpmem this
    · rw [List.nodup_flatMap]
      constructor
      · intro i hi
        obtain ⟨hIi, hi2, hi3⟩ := mem_loopRange hi
        have h1i : 1 ≤ i := le_trans hI hIi
        exact (ih (by omega) h1i).map
          (fun p q h => by injection h)
      · have hnd : (List.range' I (n / 2 + 1 - I)).Nodup := List.nodup_range' _ _
        refine hnd.imp ?_
        intro i j hij
        intro l hl₁ hl₂
        rcases List.mem_map.mp hl₁ with ⟨p, _, rfl⟩
        rcases List.mem_map.mp hl₂ with ⟨q, _, hq⟩
        refine hij ?_
        injection hq with h t
        exact h.symm

/-! The multiplicity-vector view: `partcounts` yields exactly the
multiplicity vectors of the partitions yielded by `partitions`. -/

@[simp] theorem toVec_length (n : ℕ) (l : List ℕ) : (toVec n l).length = n := by
  simp [toVec]

theorem toVec_getElem (n : ℕ) (l : List ℕ) (j : ℕ) (h : j < (toVec n l).length) :
    (toVec n l)[j] = l.count (j + 1) := by
  simp [toVec]

@[simp] theorem incAt_length (l : List ℕ) (j : ℕ) : (incAt l j).length = l.length := by
  simp [incAt]

theorem toVec_getD {n : ℕ} (l : List ℕ) {j : ℕ} (hj : j < n) :
    (toVec n l).getD j 0 = l.count (j + 1) := by
  rw [List.getD_eq_getElem _ _ (by simpa using hj), toVec_getElem]

theorem incAt_getD (l : List ℕ) (j k : ℕ) (hk : k < l.length) :
    (incAt l j).getD k 0 = if j = k then l.getD k 0 + 1 else l.getD k 0 := by
  have h : k < (incAt l j).length := by simpa using hk
  rw [List.getD_eq_getElem _ _ h, List.getD_eq_getElem _ _ hk]
  simp only [incAt, List.getElem_set]
  rcases eq_or_ne j k with rfl | hjk
  · simp [List.getD_eq_getElem l 0 hk]
    rw [List.getElem?_eq_getElem hk]
    rfl
  · simp [hjk]

/-- The base yield `[0]*(n-1) + [1]` is the multiplicity vector of the
whole-`n` partition `[n]`. -/
theorem toVec_whole {n : ℕ} (hn : 1 ≤ n) :
    toVec n [n] = List.replicate (n - 1) 0 ++ [1] := by
  apply List.ext_getElem
  · simp
    omega
  · intro j h₁ h₂
    rw [toVec_getElem]
    have hj : j < n := by simpa using h₁
    rcases Nat.lt_or_ge j (n - 1) with hj' | hj'
    · rw [List.getElem_append_left (by simpa using hj')]
      have hne : n ≠ j + 1 := by omega
      simp [List.count_cons, hne]
    · have hj1 : j = n - 1 := by omega
      subst hj1
      rw [List.getElem_append_right (by simp)]
      have heq : n - 1 + 1 = n := by omega
      rw [heq]
      simp [List.count_cons]

/-- Prepending a part increments the corresponding slot of the
multiplicity vector. -/
theorem toVec_cons {n i : ℕ} (l : List ℕ) (h1 : 1 ≤ i) (h2 : i ≤ n) :
    toVec n (i :: l) = incAt (toVec n l) (i - 1) := by
  apply List.ext_getElem
  · simp
  · intro j h₁ h₂
    have hj : j < n := by simpa using h₁
    rw [← List.getD_eq_getElem _ 0 h₁, ← List.getD_eq_getElem _ 0 h₂]
    rw [toVec_getD _ hj, incAt_getD _ _ _ (by simpa using hj), toVec_getD _ hj]
    have hcount : (i :: l).count (j + 1) = l.count (j + 1) + if i = j + 1 then 1 else 0 := by
      simp [List.count_cons]
    rw [hcount]
    rcases eq_or_ne (i - 1) j with hij | hij
    · have : i = j + 1 := by omega
      simp [hij, this]
    · have : i ≠ j + 1 := by omega
      simp [hij, this]

/-- Multiplicity vectors ignore parts above `n`; a list of parts bounded by
`m` has its length-`n` vector obtained from the length-`m` one by padding
with zeros. -/
theorem toVec_pad {m n : ℕ} (l : List ℕ) (hmn : m ≤ n) (hb : ∀ x ∈ l, x ≤ m) :
    toVec n l = toVec m l ++ List.replicate (n - m) 0 := by
  apply List.ext_getElem
  · simp
    omega
  · intro j h₁ h₂
    have hj : j < n := by simpa using h₁
    rw [toVec_getElem]
    rcases Nat.lt_or_ge j m with hjm | hjm
    · rw [List.getElem_append_left (by simpa using hjm)]
      rw [toVec_getElem]
    · rw [List.getElem_append_right (by simpa using hjm)]
      simp only [List.getElem_replicate]
      rw [List.count_eq_zero]
      intro hmem
      exact absurd (hb _ hmem) (by omega)

/-- Every part of a yielded partition is at most `n` (it is bounded by the
sum). -/
theorem mem_partitionsF_le {fuel n I : ℕ} {l : List ℕ} (h₁ : n ≤ fuel) (hI : 1 ≤ I)
    (hn : 1 ≤ n) (hl : l ∈ partitionsF fuel n I) : ∀ x ∈ l, x ≤ n := by
  rcases (mem_partitionsF l h₁ hI hn).mp hl with rfl | ⟨_, hsum, _, _⟩
  · simp
  · intro x hx
    calc x ≤ l.sum := List.le_sum_of_mem hx
    _ = n := hsum

/-- The partition-count generator is the partition generator composed with
`toVec`: it yields exactly the multiplicity vectors of the partitions, in
the same order. -/
theorem partcountsF_eq_map :
    ∀ {fuel n I : ℕ}, n ≤ fuel → 1 ≤ I → 1 ≤ n →
      partcountsF fuel n I = (partitionsF fuel n I).map (toVec n) := by
  intro fuel
  induction fuel with
  | zero => intro n I h₁ hI hn; omega
  | succ fuel ih =>
    intro n I h₁ hI hn
    rw [partcountsF, partitionsF, List.map_cons, toVec_whole hn, List.map_flatMap]
    congr 1
    unfold List.flatMap
    congr 1
    apply List.map_congr_left
    intro i hi
    obtain ⟨hIi, hi2, hi3⟩ := mem_loopRange hi
    have h1i : 1 ≤ i := le_trans hI hIi
    have hni : 1 ≤ n - i := by omega
    rw [@ih (n - i) i (by omega) h1i hni, List.map_map, List.map_map]
    apply List.map_congr_left
    intro p hp
    show incAt (toVec (n - i) p ++ List.replicate i 0) (i - 1) = toVec n (i :: p)
    have hpad : toVec n p = toVec (n - i) p ++ List.replicate (n - (n - i)) 0 :=
      toVec_pad p (by omega) (mem_partitionsF_le (by omega) h1i hni hp)
    have hni' : n - (n - i) = i := by omega
    rw [hni'] at hpad
    rw [← hpad, toVec_cons p h1i (by omega)]

/-! Specializations at the default minimum part, and the bijection with
the mathematical partitions `Nat.Partition n`. -/

theorem mem_partitions {n : ℕ} (l : List ℕ) (hn : 1 ≤ n) :
    l ∈ partitions n ↔
      l = [n] ∨ (l.Sorted (· ≤ ·) ∧ l.sum = n ∧ 2 ≤ l.length ∧ ∀ x ∈ l, 1 ≤ x) :=
  mem_partitionsF l le_rfl le_rfl hn

theorem nodup_partitions (n : ℕ) : (partitions n).Nodup :=
  nodup_partitionsF le_rfl le_rfl

theorem partcounts_eq_map {n : ℕ} (hn : 1 ≤ n) :
    partcounts n = (partitions n).map (toVec n) :=
  partcountsF_eq_map le_rfl le_rfl hn

theorem mem_partitions_sorted {n : ℕ} {l : List ℕ} (hn : 1 ≤ n)
    (hl : l ∈ partitions n) : l.Sorted (· ≤ ·) := by
  rcases (mem_partitions l hn).mp hl with rfl | ⟨hs, _, _, _⟩
  · simp
  · exact hs

theorem mem_partitions_pos {n : ℕ} {l : List ℕ} (hn : 1 ≤ n)
    (hl : l ∈ partitions n) : ∀ x ∈ l, 0 < x := by
  rcases (mem_partitions l hn).mp hl with rfl | ⟨_, _, _, hge⟩
  · intro x hx
    simp only [List.mem_singleton] at hx
    omega
  · exact hge

theorem mem_partitions_sum {n : ℕ} {l : List ℕ} (hn : 1 ≤ n)
    (hl : l ∈ partitions n) : l.sum = n := by
  rcases (mem_partitions l hn).mp hl with rfl | ⟨_, hsum, _, _⟩
  · simp
  · exact hsum

theorem mem_partitions_le {n : ℕ} {l : List ℕ} (hn : 1 ≤ n)
    (hl : l ∈ partitions n) : ∀ x ∈ l, x ≤ n :=
  mem_partitionsF_le le_rfl le_rfl hn hl

theorem sortedOf_mem_partitions {n : ℕ} (hn : 1 ≤ n) (π : Nat.Partition n) :
    sortedOf π ∈ partitions n := by
  have hsorted : (sortedOf π).Sorted (· ≤ ·) := Multiset.sort_sorted _ _
  have hsum : (sortedOf π).sum = n := by
    have h := congrArg Multiset.sum (Multiset.sort_eq (· ≤ ·) π.parts)
    rw [Multiset.sum_coe] at h
    exact h.trans π.parts_sum
  have hpos : ∀ x ∈ sortedOf π, 1 ≤ x := fun x hx =>
    π.parts_pos ((Multiset.mem_sort _).mp hx)
  rw [mem_partitions _ hn]
  match hl : sortedOf π, hsum, hsorted, hpos with
  | [], hsum, _, _ => simp at hsum; omega
  | [y], hsum, _, _ =>
    left
    simp only [List.sum_cons, List.sum_nil, add_zero] at hsum
    rw [hsum]
  | y :: z :: rest, hsum, hsorted, hpos =>
    right
    exact ⟨hsorted, hsum, by simp, hpos⟩

theorem partitions_inj {n : ℕ} (hn : 1 ≤ n) {l₁ l₂ : List ℕ}
    (h₁ : l₁ ∈ partitions n) (h₂ : l₂ ∈ partitions n)
    (h : (l₁ : Multiset ℕ) = (l₂ : Multiset ℕ)) : l₁ = l₂ :=
  List.eq_of_perm_of_sorted (Multiset.coe_eq_coe.mp h)
    (mem_partitions_sorted hn h₁) (mem_partitions_sorted hn h₂)

theorem sortedOf_toPartition {n : ℕ} (hn : 1 ≤ n) {l : List ℕ}
    (hl : l ∈ partitions n) (hpos : ∀ x ∈ l, 0 < x) (hsum : l.sum = n) :
    sortedOf (toPartition l hpos hsum) = l := by
  apply List.eq_of_perm_of_sorted _ (Multiset.sort_sorted _ _)
    (mem_partitions_sorted hn hl)
  rw [← Multiset.coe_eq_coe, Multiset.sort_eq]
  rfl

theorem toPartition_sortedOf {n : ℕ} (hn : 1 ≤ n) (π : Nat.Partition n)
    (hpos : ∀ x ∈ sortedOf π, 0 < x) (hsum : (sortedOf π).sum = n) :
    toPartition (sortedOf π) hpos hsum = π := by
  apply Nat.Partition.ext
  show ((sortedOf π : List ℕ) : Multiset ℕ) = π.parts
  exact Multiset.sort_eq _ _

theorem sortedOf_inj {n : ℕ} {π₁ π₂ : Nat.Partition n}
    (h : sortedOf π₁ = sortedOf π₂) : π₁ = π₂ := by
  apply Nat.Partition.ext
  rw [← Multiset.sort_eq (· ≤ ·) π₁.parts, ← Multiset.sort_eq (· ≤ ·) π₂.parts]
  show ((sortedOf π₁ : List ℕ) : Multiset ℕ) = ((sortedOf π₂ : List ℕ) : Multiset ℕ)
  rw [h]

/-- The enumerated partitions are in bijection with `Nat.Partition n`:
transport of sums. -/
theorem sum_partitions_eq {n : ℕ} (hn : 1 ≤ n) (F : List ℕ → ℚ) :
    ∑ π : Nat.Partition n, F (sortedOf π) = ((partitions n).map F).sum := by
  rw [← List.sum_toFinset F (nodup_partitions n)]
  apply Finset.sum_bij
    (fun (π : Nat.Partition n) (hπ : π ∈ Finset.univ) => sortedOf π)
  · intro π hπ
    exact List.mem_toFinset.mpr (sortedOf_mem_partitions hn π)
  · intro π₁ h₁ π₂ h₂ heq
    exact sortedOf_inj heq
  · intro l hl
    have hl' := List.mem_toFinset.mp hl
    refine ⟨toPartition l (mem_partitions_pos hn hl') (mem_partitions_sum hn hl'),
      Finset.mem_univ _, ?_⟩
    exact sortedOf_toPartition hn hl' _ _
  · intro π hπ
    rfl

/-- The enumerated partitions are in bijection with `Nat.Partition n`:
equality of cardinalities. -/
theorem length_partitions {n : ℕ} (hn : 1 ≤ n) :
    (partitions n).length = Fintype.card (Nat.Partition n) := by
  rw [← List.toFinset_card_of_nodup (nodup_partitions n), Fintype.card,
    ← Finset.card_bij (fun (π : Nat.Partition n) (hπ : π ∈ Finset.univ) => sortedOf π)
      (fun π hπ => List.mem_toFinset.mpr (sortedOf_mem_partitions hn π))
      ?_ ?_]
  · intro π₁ h₁ π₂ h₂ heq
    exact sortedOf_inj heq
  · intro l hl
    have hl' := List.mem_toFinset.mp hl
    refine ⟨toPartition l (mem_partitions_pos hn hl') (mem_partitions_sum hn hl'),
      Finset.mem_univ _, ?_⟩
    exact sortedOf_toPartition hn hl' _ _

/-- `toVec n` is injective on the partitions of `n`. -/
theorem toVec_inj_on {n : ℕ} (hn : 1 ≤ n) {l₁ l₂ : List ℕ}
    (h₁ : l₁ ∈ partitions n) (h₂ : l₂ ∈ partitions n)
    (h : toVec n l₁ = toVec n l₂) : l₁ = l₂ := by
  apply partitions_inj hn h₁ h₂
  rw [Multiset.coe_eq_coe, List.perm_iff_count]
  intro v
  rcases Nat.eq_zero_or_pos v with rfl | hv
  · rw [List.count_eq_zero.mpr, List.count_eq_zero.mpr]
    · intro hmem
      exact absurd (mem_partitions_pos hn h₂ _ hmem) (by omega)
    · intro hmem
      exact absurd (mem_partitions_pos hn h₁ _ hmem) (by omega)
  · rcases Nat.lt_or_ge (v - 1) n with hvn | hvn
    · have := congrArg (fun t => t.getD (v - 1) 0) h
      simp only [toVec_getD _ hvn] at this
      have hv1 : v - 1 + 1 = v := by omega
      rwa [hv1] at this
    · rw [List.count_eq_zero.mpr, List.count_eq_zero.mpr]
      · intro hmem
        exact absurd (mem_partitions_le hn h₂ _ hmem) (by omega)
      · intro hmem
        exact absurd (mem_partitions_le hn h₁ _ hmem) (by omega)

theorem nodup_partcounts {n : ℕ} (hn : 1 ≤ n) : (partcounts n).Nodup := by
  rw [partcounts_eq_map hn]
  exact (nodup_partitions n).map_on (fun l₁ h₁ l₂ h₂ h => toVec_inj_on hn h₁ h₂ h)

/-- The multiplicity vector of a mathematical partition agrees with
`toVec` of its sorted part-list. -/
theorem countVec_eq_toVec {n : ℕ} (π : Nat.Partition n) :
    countVec n π = toVec n (sortedOf π) := by
  apply List.ext_getElem
  · simp [countVec]
  · intro j h₁ h₂
    have hj : j < n := by simpa [countVec] using h₁
    rw [toVec_getElem]
    show (countVec n π)[j] = _
    simp only [countVec, List.getElem_map, List.getElem_range]
    rw [← Multiset.coe_count]
    rw [show ((sortedOf π : List ℕ) : Multiset ℕ) = π.parts from
      Multiset.sort_eq (· ≤ ·) π.parts]

/-- The weight `Σ (j+1)·count(j+1)` of a list with parts in `[1, n]` is
its sum. -/
theorem sum_count_eq_sum {n : ℕ} :
    ∀ (l : List ℕ), (∀ x ∈ l, 0 < x) → (∀ x ∈ l, x ≤ n) →
      ∑ j ∈ Finset.range n, (j + 1) * l.count (j + 1) = l.sum := by
  intro l
  induction l with
  | nil => simp
  | cons x l ih =>
    intro hpos hle
    have h1x : 1 ≤ x := hpos x (by simp)
    have hxn : x ≤ n := hle x (by simp)
    have hcount : ∀ j, (x :: l).count (j + 1) =
        l.count (j + 1) + if j = x - 1 then 1 else 0 := by
      intro j
      rcases eq_or_ne j (x - 1) with rfl | hj
      · have : x = x - 1 + 1 := by omega
        simp [List.count_cons, ← this]
      · have : x ≠ j + 1 := by omega
        simp [List.count_cons, this, hj]
    calc ∑ j ∈ Finset.range n, (j + 1) * (x :: l).count (j + 1)
        = ∑ j ∈ Finset.range n, ((j + 1) * l.count (j + 1) +
            (if j = x - 1 then j + 1 else 0)) := by
          apply Finset.sum_congr rfl
          intro j hj
          rw [hcount j]
          rcases eq_or_ne j (x - 1) with rfl | hj'
          · simp [Nat.mul_add]
          · simp [hj']
    _ = l.sum + (if x - 1 ∈ Finset.range n then x - 1 + 1 else 0) := by
          rw [Finset.sum_add_distrib,
            ih (fun y hy => hpos y (by simp [hy])) (fun y hy => hle y (by simp [hy])),
            Finset.sum_ite_eq' (Finset.range n) (x - 1) (fun j => j + 1)]
    _ = (x :: l).sum := by
          have hmem : x - 1 ∈ Finset.range n := by
            simp only [Finset.mem_range]
            omega
          simp only [hmem, if_true, List.sum_cons]
          omega

theorem wt_toVec {n : ℕ} (l : List ℕ) (hpos : ∀ x ∈ l, 0 < x)
    (hle : ∀ x ∈ l, x ≤ n) : wt (toVec n l) = l.sum := by
  unfold wt
  rw [toVec_length]
  calc ∑ i ∈ Finset.range n, (i + 1) * (toVec n l).getD i 0
      = ∑ i ∈ Finset.range n, (i + 1) * l.count (i + 1) := by
        apply Finset.sum_congr rfl
        intro i hi
        rw [toVec_getD _ (Finset.mem_range.mp hi)]
  _ = l.sum := sum_count_eq_sum l hpos hle

/-! The relation between `partcounts` and `tayparts`: the latter is the
former minus its leading whole-`n` vector, with each remaining vector's
trailing zero (the slot of the part value `n`) dropped. -/

theorem partcountsF_fuelIrrel {fuel₁ fuel₂ n I : ℕ} (h₁ : n ≤ fuel₁)
    (h₂ : n ≤ fuel₂) (hI : 1 ≤ I) (hn : 1 ≤ n) :
    partcountsF fuel₁ n I = partcountsF fuel₂ n I := by
  rw [partcountsF_eq_map h₁ hI hn, partcountsF_eq_map h₂ hI hn,
    partitionsF_fuelIrrel h₁ h₂ hI]

theorem mem_partcountsF_length {fuel n I : ℕ} {p : List ℕ} (h₁ : n ≤ fuel)
    (hI : 1 ≤ I) (hn : 1 ≤ n) (hp : p ∈ partcountsF fuel n I) : p.length = n := by
  rw [partcountsF_eq_map h₁ hI hn] at hp
  rcases List.mem_map.mp hp with ⟨l, _, rfl⟩
  exact toVec_length n l

/-- One unfolding of `partcounts n`, with all inner generators taken at
fuel `n`. -/
theorem partcounts_eq_cons {n : ℕ} (hn : 1 ≤ n) :
    partcounts n = (List.replicate (n - 1) 0 ++ [1]) ::
      ((List.range' 1 (n / 2)).flatMap fun i =>
        (partcountsF n (n - i) i).map fun p =>
          incAt (p ++ List.replicate i 0) (i - 1)) := by
  obtain ⟨m, rfl⟩ : ∃ m, n = m + 1 := ⟨n - 1, by omega⟩
  show partcountsF (m + 1) (m + 1) 1 = _
  rw [partcountsF]
  have hr : (m + 1) / 2 + 1 - 1 = (m + 1) / 2 := by omega
  rw [hr]
  congr 1
  unfold List.flatMap
  congr 1
  apply List.map_congr_left
  intro i hi
  rw [List.mem_range'_1] at hi
  congr 1
  exact partcountsF_fuelIrrel (by omega) (by omega) (by omega) (by omega)

theorem incAt_append_zero {p : List ℕ} {j : ℕ} (h : j < p.length) :
    incAt p j ++ [0] = incAt (p ++ [0]) j := by
  unfold incAt
  rw [List.getD_append _ _ _ _ h, List.set_append]
  simp [h]

/-- Appending the trailing zero to each `tayparts` vector recovers the
loop part of `partcounts`. -/
theorem tayparts_append_zero {n : ℕ} (hn : 1 ≤ n) :
    (tayparts n).map (fun p => p ++ [0]) =
      (List.range' 1 (n / 2)).flatMap fun i =>
        (partcountsF n (n - i) i).map fun p =>
          incAt (p ++ List.replicate i 0) (i - 1) := by
  unfold tayparts
  rw [List.map_flatMap]
  unfold List.flatMap
  congr 1
  apply List.map_congr_left
  intro i hi
  rw [List.mem_range'_1] at hi
  have hi' : 1 ≤ i ∧ i ≤ n / 2 := by omega
  rw [List.map_map]
  apply List.map_congr_left
  intro p hp
  have hplen : p.length = n - i :=
    mem_partcountsF_length (by omega) (by omega) (by omega) hp
  show incAt (p ++ List.replicate (i - 1) 0) (i - 1) ++ [0] = _
  have hrep : List.replicate i (0 : ℕ) = List.replicate (i - 1) 0 ++ [0] := by
    conv_lhs => rw [show i = (i - 1) + 1 by omega]
    rw [List.replicate_succ']
  rw [hrep, ← List.append_assoc]
  apply incAt_append_zero
  have : 2 * i ≤ n := by omega
  simp [hplen]
  omega

/-- `partcounts n` is its whole-`n` head followed by the `tayparts n`
vectors, each padded with its trailing zero. -/
theorem partcounts_tail_eq {n : ℕ} (hn : 1 ≤ n) :
    partcounts n =
      (List.replicate (n - 1) 0 ++ [1]) :: (tayparts n).map (fun p => p ++ [0]) := by
  rw [partcounts_eq_cons hn, tayparts_append_zero hn]

/-- Every vector yielded by `tayparts n` has length `n - 1`. -/
theorem mem_tayparts_length {n : ℕ} {p : List ℕ} (hp : p ∈ tayparts n) :
    p.length = n - 1 := by
  unfold tayparts at hp
  rcases List.mem_flatMap.mp hp with ⟨i, hi, hp'⟩
  rcases List.mem_map.mp hp' with ⟨q, hq, rfl⟩
  rw [List.mem_range'_1] at hi
  have hi' : 1 ≤ i ∧ i ≤ n / 2 := by omega
  have hqlen : q.length = n - i :=
    mem_partcountsF_length (by omega) (by omega) (by omega) hq
  have : 2 * i ≤ n := by omega
  simp [hqlen]
  omega

/-! The loop-accumulated `term` equals the spec's product formula. -/

theorem foldl_mul_range (h : ℕ → ℚ) :
    ∀ (m : ℕ) (c : ℚ),
      (List.range m).foldl (fun P i => P * h i) c = c * ∏ i ∈ Finset.range m, h i := by
  intro m
  induction m with
  | zero => intro c; simp
  | succ m ih =>
    intro c
    rw [List.range_succ, List.foldl_append, ih, Finset.prod_range_succ]
    simp [mul_assoc]

theorem term_eq_fdbTerm (f g : List ℚ) (n : ℕ) (p : List ℕ) :
    term f g n p = fdbTerm f g n p := by
  unfold term fdbTerm
  rw [foldl_mul_range]

/-- The inner loop of `faadibruno` sums the spec's Faà di Bruno formula
over every partition of `n` exactly once. -/
theorem sum_partcounts_term {n : ℕ} (hn : 1 ≤ n) (f g : List ℚ) :
    ((partcounts n).map (term f g n)).sum = fdbSum f g n := by
  rw [partcounts_eq_map hn, List.map_map]
  rw [← sum_partitions_eq hn (term f g n ∘ toVec n)]
  unfold fdbSum
  apply Finset.sum_congr rfl
  intro π _
  show term f g n (toVec n (sortedOf π)) = fdbTerm f g n (countVec n π)
  rw [countVec_eq_toVec, term_eq_fdbTerm]

theorem faadibruno_length (f g : List ℚ) : (faadibruno f g).length = f.length := by
  simp [faadibruno]

theorem faadibruno_getD {f g : List ℚ} {n : ℕ} (h1 : 1 ≤ n) (h2 : n ≤ f.length) :
    (faadibruno f g).getD (n - 1) 0 = ((partcounts n).map (term f g n)).sum := by
  have hb : n - 1 < (faadibruno f g).length := by
    rw [faadibruno_length]
    omega
  rw [List.getD_eq_getElem _ _ hb]
  unfold faadibruno
  rw [List.getElem_map, List.getElem_range']
  have he : 1 + 1 * (n - 1) = n := by omega
  rw [he]

/-! Claim theorems and witnesses. -/

/-- C1: for derivative sequences `f` and `g` of equal length `N ≥ 1`, the
`n`-th yielded value of `faadibruno f g` (`1 ≤ n ≤ N`) equals the Faà di
Bruno sum, over every partition-count vector `p` of `n`, of
`n!·f[Σp−1]·Π_i (g[i]^p[i] / p[i]! / (i+1)!^p[i])` — the formula giving
the `n`-th derivative of `f∘g` — and the output sequence has length `N`. -/
theorem faadibruno_matches_formula (f g : List ℚ) (hlen : f.length = g.length)
    (n : ℕ) (h1 : 1 ≤ n) (h2 : n ≤ f.length) :
    (faadibruno f g).length = f.length ∧
    (faadibruno f g).getD (n - 1) 0 = fdbSum f g n :=
  ⟨faadibruno_length f g, by rw [faadibruno_getD h1 h2, sum_partcounts_term h1]⟩

/-- Witness for C1 at `f = [1, 2]`, `g = [3, 4]`, `n = 2`. -/
theorem faadibruno_matches_formula_witness :
    (faadibruno [1, 2] [3, 4]).length = 2 ∧
    (faadibruno [1, 2] [3, 4]).getD 1 0 = fdbSum [1, 2] [3, 4] 2 :=
  faadibruno_matches_formula [1, 2] [3, 4] (by decide) 2 (by decide) (by decide)

/-- C4: for `n ≥ 1`, every list yielded by `partitions n` consists of
positive integers summing to `n`; every vector yielded by `partcounts n`
satisfies `Σ (i+1)·p[i] = n`; each generator yields every integer
partition of `n` exactly once (no duplicates, every `Nat.Partition n`
attained); and each yields exactly `p(n) = Fintype.card (Nat.Partition n)`
elements. -/
theorem partition_generators_correct (n : ℕ) (hn : 1 ≤ n) :
    (∀ l ∈ partitions n, (∀ x ∈ l, 0 < x) ∧ l.sum = n) ∧
    (∀ p ∈ partcounts n, wt p = n) ∧
    (partitions n).Nodup ∧
    (partcounts n).Nodup ∧
    (∀ π : Nat.Partition n, ∃ l ∈ partitions n, (l : Multiset ℕ) = π.parts) ∧
    (∀ π : Nat.Partition n, ∃ p ∈ partcounts n, p = countVec n π) ∧
    (partitions n).length = Fintype.card (Nat.Partition n) ∧
    (partcounts n).length = Fintype.card (Nat.Partition n) := by
  refine ⟨fun l hl => ⟨mem_partitions_pos hn hl, mem_partitions_sum hn hl⟩,
    ?_, nodup_partitions n, nodup_partcounts hn, ?_, ?_, length_partitions hn, ?_⟩
  · intro p hp
    rw [partcounts_eq_map hn] at hp
    rcases List.mem_map.mp hp with ⟨l, hl, rfl⟩
    rw [wt_toVec l (mem_partitions_pos hn hl) (mem_partitions_le hn hl)]
    exact mem_partitions_sum hn hl
  · intro π
    exact ⟨sortedOf π, sortedOf_mem_partitions hn π, Multiset.sort_eq _ _⟩
  · intro π
    refine ⟨toVec n (sortedOf π), ?_, (countVec_eq_toVec π).symm⟩
    rw [partcounts_eq_map hn]
    exact List.mem_map_of_mem _ (sortedOf_mem_partitions hn π)
  · rw [partcounts_eq_map hn, List.length_map]
    exact length_partitions hn

/-- Witness for C4 at `n = 5`, with the spec's example count `p(5) = 7`. -/
theorem partition_generators_correct_witness :
    (1 ≤ 5 ∧ (partitions 5).length = Fintype.card (Nat.Partition 5) ∧
      (partcounts 5).length = Fintype.card (Nat.Partition 5)) ∧
    (partitions 5).length = 7 ∧ (partcounts 5).length = 7 :=
  ⟨⟨by decide, (partition_generators_correct 5 (by decide)).2.2.2.2.2.2.1,
      (partition_generators_correct 5 (by decide)).2.2.2.2.2.2.2⟩,
    by decide, by decide⟩

/-- C5 counterexample: `tayparts 2` yields exactly the vector `[2]`, which
has length `1 = n − 1`, not the claimed fixed length `n = 2`. -/
theorem tayparts_length_counterexample :
    tayparts 2 = [[2]] ∧ ¬ (∀ p ∈ tayparts 2, p.length = 2) := by
  constructor
  · rfl
  · decide

/-- C5 amended: for `n ≥ 2`, `tayparts n` yields exactly the enumeration
of `partcounts n` with the single whole-`n` vector (its first element)
omitted, each exactly once and without duplicates, except that every
emitted vector has length `n − 1`: the trailing slot for the part value
`n` (always zero for a partition with at least two parts) is dropped. -/
theorem tayparts_eq_partcounts_tail (n : ℕ) (hn : 2 ≤ n) :
    (tayparts n).map (fun p => p ++ [0]) = (partcounts n).tail ∧
    (∀ p ∈ tayparts n, p.length = n - 1) ∧
    (tayparts n).Nodup := by
  have h1 : 1 ≤ n := by omega
  refine ⟨?_, fun p hp => mem_tayparts_length hp, ?_⟩
  · rw [partcounts_tail_eq h1]
    rfl
  · have h2 := nodup_partcounts h1
    rw [partcounts_tail_eq h1, List.nodup_cons] at h2
    exact List.Nodup.of_map _ h2.2

/-- Witness for C5 at `n = 4`. -/
theorem tayparts_eq_partcounts_tail_witness :
    2 ≤ 4 ∧ (tayparts 4).map (fun p => p ++ [0]) = (partcounts 4).tail :=
  ⟨by decide, (tayparts_eq_partcounts_tail 4 (by decide)).1⟩

/-- C3 (code bug): at `t = [0, 1]`, the Taylor series of the identity
function `f(x) = x` (nonzero linear coefficient, inverse exactly itself,
no truncation error), `taylor_inverse` returns `[-1, 1]` — the series of
`x − 1` — instead of the inverse's coefficients `[0, 1]`.  The cause: it
recenters from `derivs[0] = t[1]` instead of the composition point
`t[0]`, and scales by `(i−1)!` instead of `i!`. -/
theorem taylor_inverse_identity_bug :
    taylor_inverse [0, 1] = [-1, 1] ∧ taylor_inverse [0, 1] ≠ [0, 1] := by
  have h1 : taylor_inverse_derivs [0, 1] = [1] := by
    norm_num [taylor_inverse_derivs, List.enum, List.enumFrom, fac]
  have h2 : _taylor_inverse [1] = [1] := by
    norm_num [_taylor_inverse, List.range']
  have h3 : taylor_inverse_G [0, 1] = [0, 1] := by
    simp only [taylor_inverse_G, h1, h2]
    norm_num [List.enum, List.enumFrom, fac]
  have h4 : taylor_inverse [0, 1] = [-1, 1] := by
    rw [taylor_inverse, h1, h3]
    norm_num [taylor_recenter, List.range_succ, List.range_zero, List.range']
  refine ⟨h4, by rw [h4]; norm_num⟩

/-- C6 (code bug): the conversions inside `taylor_inverse` scale by
`(i−1)!`, not `i!`.  At `t = [0, 1, 1]` the code builds
`derivs = [t[1]·0!, t[2]·1!] = [1, 1]` where the claimed relation
`derivs[i−1] = t[i]·i!` requires `[1, 2]`; and from the solved
`g = [1, -1]` it builds `G = [0, g[0]/0!, g[1]/1!] = [0, 1, -1]` where
the claimed `G[i] = g[i−1]/i!` requires `[0, 1, -1/2]`. -/
theorem taylor_inverse_scaling_bug :
    taylor_inverse_derivs [0, 1, 1] = [1, 1] ∧
    _taylor_inverse (taylor_inverse_derivs [0, 1, 1]) = [1, -1] ∧
    taylor_inverse_G [0, 1, 1] = [0, 1, -1] := by
  have h1 : taylor_inverse_derivs [0, 1, 1] = [1, 1] := by
    norm_num [taylor_inverse_derivs, List.enum, List.enumFrom, fac]
  have ht : tayparts 2 = [[2]] := by decide
  have h2 : _taylor_inverse [1, 1] = [1, -1] := by
    norm_num [_taylor_inverse, List.range', invStep, ht, term, fac, Nat.factorial,
      List.range_succ, List.range_zero]
  refine ⟨h1, by rw [h1, h2], ?_⟩
  simp only [taylor_inverse_G, h1, h2]
  norm_num [List.enum, List.enumFrom, fac]

/-- C9 counterexample: at `n = 0` neither generator fails: `partitions`
yields the single tuple `(0,)` and `partcounts` yields the single list
`[1]`. -/
theorem partitions_zero_counterexample :
    partitions 0 = [[0]] ∧ partcounts 0 = [[1]] := by
  decide

/-- C9 amended: for every integer `n ≤ 0` the generators raise no error
and yield exactly one (garbage) element: `partitions(n)` yields the single
tuple `(n,)` and `partcounts(n)` yields the single list `[1]`. -/
theorem partitions_nonpos (n : ℤ) (hn : n ≤ 0) :
    partitionsZ n = [[n]] ∧ partcountsZ n = [[1]] := by
  have h : ¬ (0 < n) := by omega
  constructor
  · simp [partitionsZ, h]
  · simp [partcountsZ, h]

/-- Witness for C9 at `n = -3`. -/
theorem partitions_nonpos_witness :
    (-3 : ℤ) ≤ 0 ∧ partitionsZ (-3) = [[-3]] ∧ partcountsZ (-3) = [[1]] :=
  ⟨by decide, (partitions_nonpos (-3) (by decide)).1, (partitions_nonpos (-3) (by decide)).2⟩

/-- C10: evaluating the empty coefficient list succeeds and returns `0`
for every `x` and every center `c`: the empty truncated series is the zero
function. -/
theorem taylor_empty (x c : ℚ) : taylor x c [] = 0 := rfl

/-- C8: for every derivative sequence `f` of length ≥ 1 with `f[0] = 0`,
`_taylor_inverse` fails — its first statement `g = [1/f[0]]` raises
Python's `ZeroDivisionError` (division of a field value by zero), a
failure outcome distinguishable by the caller — rather than returning a
value. -/
theorem taylor_inverse_domain_error (f : List ℚ) (hlen : 1 ≤ f.length)
    (h0 : f.getD 0 0 = 0) :
    _taylor_inverse_checked f = Except.error PyError.zeroDivision := by
  unfold _taylor_inverse_checked
  rw [if_pos h0]

/-- Witness for C8 at `f = [0, 1]`. -/
theorem taylor_inverse_domain_error_witness :
    1 ≤ ([0, 1] : List ℚ).length ∧ ([0, 1] : List ℚ).getD 0 0 = 0 ∧
    _taylor_inverse_checked [0, 1] = Except.error PyError.zeroDivision :=
  ⟨by simp, by simp, taylor_inverse_domain_error [0, 1] (by simp) (by simp)⟩

/-! Correctness of `taylor_recenter`: the loop's incremental product
equals the binomial weight of the Taylor-shift identity. -/

theorem w_zero (x c : ℚ) (k s : ℕ) : w x c k s 0 = 1 := by
  simp [w]

theorem w_succ_left (x c : ℚ) (k s d : ℕ) :
    w x c k s (d + 1) =
      (((s : ℕ) : ℚ) * (x - c) / ((s - k : ℕ) : ℚ)) * w x c k (s + 1) d := by
  unfold w
  rw [Finset.prod_range_succ']
  rw [mul_comm]
  congr 1
  apply Finset.prod_congr rfl
  intro m _
  have h : s + (m + 1) = s + 1 + m := by omega
  rw [h]

theorem w_succ_right (x c : ℚ) (k s d : ℕ) :
    w x c k s (d + 1) =
      w x c k s d * (((s + d : ℕ) : ℚ) * (x - c) / (((s + d) - k : ℕ) : ℚ)) := by
  unfold w
  rw [Finset.prod_range_succ]

/-- Invariant of the inner loop of `taylor_recenter`: starting from
`(S, P)` and folding over `range' s L` yields the partial shifted sum and
the accumulated product. -/
theorem recenter_fold (x c : ℚ) (t : List ℚ) (k : ℕ) :
    ∀ (L s : ℕ), 1 ≤ s → ∀ (S P : ℚ),
      (List.range' s L).foldl
        (fun SP i => (SP.1 + t.getD (i - 1) 0 * SP.2,
          SP.2 * ((i : ℚ) * (x - c) / ((i - k : ℕ) : ℚ)))) (S, P) =
      (S + ∑ d ∈ Finset.range L, t.getD (s - 1 + d) 0 * (P * w x c k s d),
       P * w x c k s L) := by
  intro L
  induction L with
  | zero =>
    intro s hs S P
    simp [w_zero]
  | succ L ih =>
    intro s hs S P
    rw [List.range'_succ, List.foldl_cons]
    rw [ih (s + 1) (by omega)]
    rw [Prod.ext_iff]
    constructor
    · show S + t.getD (s - 1) 0 * P + ∑ d ∈ Finset.range L,
        t.getD (s + 1 - 1 + d) 0 *
          (P * ((s : ℚ) * (x - c) / ((s - k : ℕ) : ℚ)) * w x c k (s + 1) d) =
        S + ∑ d ∈ Finset.range (L + 1), t.getD (s - 1 + d) 0 * (P * w x c k s d)
      rw [Finset.sum_range_succ']
      have hterm : ∀ d, t.getD (s - 1 + (d + 1)) 0 * (P * w x c k s (d + 1)) =
          t.getD (s + 1 - 1 + d) 0 *
            (P * ((s : ℚ) * (x - c) / ((s - k : ℕ) : ℚ)) * w x c k (s + 1) d) := by
        intro d
        rw [w_succ_left]
        have hidx : s - 1 + (d + 1) = s + 1 - 1 + d := by omega
        rw [hidx]
        ring
      rw [Finset.sum_congr rfl fun d _ => hterm d]
      simp [w_zero]
      ring
    · show P * ((s : ℚ) * (x - c) / ((s - k : ℕ) : ℚ)) * w x c k (s + 1) L =
        P * w x c k s (L + 1)
      rw [w_succ_left]
      ring

/-- Closed form of the running product: the binomial Taylor-shift
weight. -/
theorem w_closed (x c : ℚ) (k : ℕ) :
    ∀ d, w x c k (k + 1) d = ((k + d).choose k : ℚ) * (x - c) ^ d := by
  intro d
  induction d with
  | zero => simp [w_zero]
  | succ d ih =>
    rw [w_succ_right, ih]
    have hsub : (k + 1 + d) - k = d + 1 := by omega
    rw [hsub]
    have hnat : (k + d + 1) * (k + d).choose k = (k + d + 1).choose k * (d + 1) := by
      have h1 : (k + d).choose d = (k + d).choose k := by
        have h := Nat.choose_symm (show d ≤ k + d by omega)
        simpa [show k + d - d = k by omega] using h.symm
      have h2 : (k + d + 1).choose (d + 1) = (k + d + 1).choose k := by
        have h := Nat.choose_symm (show d + 1 ≤ k + d + 1 by omega)
        simpa [show k + d + 1 - (d + 1) = k by omega] using h.symm
      have h3 := Nat.succ_mul_choose_eq (k + d) d
      rw [h1, h2] at h3
      simpa [Nat.succ_eq_add_one] using h3
    have hq : ((k + d).choose k : ℚ) * ((k + 1 + d : ℕ) : ℚ) =
        ((k + d + 1).choose k : ℚ) * ((d : ℚ) + 1) := by
      have : ((k + d + 1) * (k + d).choose k : ℕ) = ((k + d + 1).choose k * (d + 1) : ℕ) :=
        hnat
      have hcast := congrArg (fun m : ℕ => (m : ℚ)) this
      push_cast at hcast
      push_cast
      linarith [hcast]
    have hd1 : ((d : ℚ) + 1) ≠ 0 := by positivity
    calc ((k + d).choose k : ℚ) * (x - c) ^ d *
          (((k + 1 + d : ℕ) : ℚ) * (x - c) / ((d + 1 : ℕ) : ℚ))
        = (((k + d).choose k : ℚ) * ((k + 1 + d : ℕ) : ℚ)) / ((d + 1 : ℕ) : ℚ) *
            ((x - c) ^ d * (x - c)) := by ring
      _ = (((k + d + 1).choose k : ℚ) * ((d : ℚ) + 1)) / ((d + 1 : ℕ) : ℚ) *
            ((x - c) ^ d * (x - c)) := by rw [hq]
      _ = ((k + d + 1).choose k : ℚ) * (x - c) ^ (d + 1) := by
            push_cast
            rw [mul_div_assoc, div_self hd1, mul_one, pow_succ]

/-- The `k`-th value yielded by `taylor_recenter` is the Taylor-shift
formula `Σ_{j=k}^{n-1} C(j,k)·t[j]·(x−c)^(j−k)`. -/
theorem taylor_recenter_getD (x c : ℚ) (t : List ℚ) {k : ℕ} (hk : k < t.length) :
    (taylor_recenter x c t).getD k 0 = recenterCoeff x c t k := by
  have hb : k < (taylor_recenter x c t).length := by
    simpa [taylor_recenter] using hk
  rw [List.getD_eq_getElem _ _ hb]
  unfold taylor_recenter
  rw [List.getElem_map, List.getElem_range]
  show ((List.range' (k + 1) (t.length - (k + 1))).foldl
      (fun SP i => (SP.1 + t.getD (i - 1) 0 * SP.2,
        SP.2 * ((i : ℚ) * (x - c) / ((i - k : ℕ) : ℚ)))) (0, 1)).1 +
    t.getD (t.length - 1) 0 *
      ((List.range' (k + 1) (t.length - (k + 1))).foldl
        (fun SP i => (SP.1 + t.getD (i - 1) 0 * SP.2,
          SP.2 * ((i : ℚ) * (x - c) / ((i - k : ℕ) : ℚ)))) (0, 1)).2 =
    recenterCoeff x c t k
  rw [recenter_fold x c t k (t.length - (k + 1)) (k + 1) (by omega)]
  show (0 : ℚ) + (∑ d ∈ Finset.range (t.length - (k + 1)),
      t.getD (k + 1 - 1 + d) 0 * (1 * w x c k (k + 1) d)) +
    t.getD (t.length - 1) 0 * (1 * w x c k (k + 1) (t.length - (k + 1))) =
    recenterCoeff x c t k
  have hsimp : ∀ d, t.getD (k + 1 - 1 + d) 0 * (1 * w x c k (k + 1) d) =
      t.getD (k + d) 0 * (((k + d).choose k : ℚ) * (x - c) ^ d) := by
    intro d
    rw [one_mul, w_closed]
    congr 2
  rw [Finset.sum_congr rfl fun d _ => hsimp d, one_mul, w_closed]
  unfold recenterCoeff
  have hn1 : t.length - 1 + 1 = t.length := by omega
  rw [← Nat.Ico_succ_right]
  simp only [Nat.succ_eq_add_one]
  rw [hn1, Finset.sum_Ico_eq_sum_range]
  have hLn : t.length - k = (t.length - (k + 1)) + 1 := by omega
  rw [hLn, Finset.sum_range_succ]
  congr 1
  · rw [zero_add]
    apply Finset.sum_congr rfl
    intro d _
    have hd : k + d - k = d := by omega
    rw [hd]
    ring
  · have h1 : k + (t.length - (k + 1)) = t.length - 1 := by omega
    have h2 : t.length - 1 - k = t.length - (k + 1) := by omega
    rw [h1, h2]
    ring

/-- C7: for every coefficient list `t` and centers `x`, `c`, the output of
`taylor_recenter x c t` has exactly `len t` values, and its `k`-th value
(`k < len t`) equals `Σ_{j=k}^{len t − 1} C(j,k)·t[j]·(x−c)^(j−k)` — the
Taylor shift of the same truncated series to the new center. -/
theorem taylor_recenter_correct (x c : ℚ) (t : List ℚ) :
    (taylor_recenter x c t).length = t.length ∧
    ∀ k, k < t.length → (taylor_recenter x c t).getD k 0 = recenterCoeff x c t k :=
  ⟨by simp [taylor_recenter], fun k hk => taylor_recenter_getD x c t hk⟩

/-- Witness for C7 at `x = 1`, `c = 0`, `t = [1, 2, 3]`, `k = 0`. -/
theorem taylor_recenter_correct_witness :
    (taylor_recenter 1 0 [1, 2, 3]).length = 3 ∧
    (taylor_recenter 1 0 [1, 2, 3]).getD 0 0 = recenterCoeff 1 0 [1, 2, 3] 0 :=
  ⟨(taylor_recenter_correct 1 0 [1, 2, 3]).1,
    (taylor_recenter_correct 1 0 [1, 2, 3]).2 0 (by simp)⟩

/-! Consistency of the inverter with the composer: the loop of
`_taylor_inverse` viewed as a recursion, and the cancellation that makes
`faadibruno f (_taylor_inverse f)` the identity's derivative sequence. -/

theorem invG_length (f : List ℚ) : ∀ k, (invG f k).length = k + 1 := by
  intro k
  induction k with
  | zero => rfl
  | succ k ih => simp [invG, ih]

/-- Entries of `invG` below index `k+1` are stable under further loop
iterations. -/
theorem invG_stable (f : List ℚ) (k : ℕ) :
    ∀ m, k ≤ m → ∀ j, j ≤ k → (invG f m).getD j 0 = (invG f k).getD j 0 := by
  intro m
  induction m with
  | zero =>
    intro h j hj
    have hk : k = 0 := by omega
    subst hk
    rfl
  | succ m ih =>
    intro h j hj
    rcases eq_or_lt_of_le h with rfl | hlt
    · rfl
    · have hk : k ≤ m := by omega
      show (invG f m ++ _).getD j 0 = _
      rw [List.getD_append _ _ _ _ (by rw [invG_length]; omega)]
      exact ih hk j hj

theorem foldl_invG (f : List ℚ) :
    ∀ (m k : ℕ),
      (List.range' (k + 2) m).foldl
        (fun g n => g ++ [-(invStep f g n) / f.getD 0 0]) (invG f k) =
      invG f (k + m) := by
  intro m
  induction m with
  | zero => intro k; rfl
  | succ m ih =>
    intro k
    rw [List.range'_succ, List.foldl_cons]
    show (List.range' (k + 1 + 2) m).foldl
      (fun g n => g ++ [-(invStep f g n) / f.getD 0 0]) (invG f (k + 1)) = _
    rw [ih (k + 1)]
    congr 1
    omega

/-- The source's foldl over `n = 2 .. len f` computes `invG` at
`len f − 1`. -/
theorem taylor_inverse_eq_invG (f : List ℚ) (h : 1 ≤ f.length) :
    _taylor_inverse f = invG f (f.length - 1) := by
  unfold _taylor_inverse
  have h0 : [1 / f.getD 0 0] = invG f 0 := rfl
  rw [h0]
  have hfold := foldl_invG f (f.length - 1) 0
  simpa using hfold

/-- `term` reads `g` only at indices below the vector's length. -/
theorem term_congr_g {f g₁ g₂ : List ℚ} {n : ℕ} {p : List ℕ}
    (h : ∀ i < p.length, g₁.getD i 0 = g₂.getD i 0) :
    term f g₁ n p = term f g₂ n p := by
  rw [term_eq_fdbTerm, term_eq_fdbTerm]
  unfold fdbTerm
  congr 1
  apply Finset.prod_congr rfl
  intro i hi
  rw [h i (Finset.mem_range.mp hi)]

/-- A trailing zero slot contributes the factor `1`. -/
theorem term_append_zero (f g : List ℚ) (n : ℕ) (p : List ℕ) :
    term f g n (p ++ [0]) = term f g n p := by
  rw [term_eq_fdbTerm, term_eq_fdbTerm]
  unfold fdbTerm
  have hsum : (p ++ [0]).sum = p.sum := by simp
  have hlen : (p ++ [0]).length = p.length + 1 := by simp
  rw [hsum, hlen, Finset.prod_range_succ]
  have hlast : (p ++ [0]).getD p.length 0 = 0 := by
    rw [List.getD_append_right _ _ _ _ le_rfl]
    simp
  rw [hlast]
  have hprod : ∏ i ∈ Finset.range p.length,
      ((g.getD i 0) ^ ((p ++ [0]).getD i 0) / (fac ((p ++ [0]).getD i 0) : ℚ) /
        ((fac (1 + i) : ℚ)) ^ ((p ++ [0]).getD i 0)) =
      ∏ i ∈ Finset.range p.length,
      ((g.getD i 0) ^ (p.getD i 0) / (fac (p.getD i 0) : ℚ) /
        ((fac (1 + i) : ℚ)) ^ (p.getD i 0)) := by
    apply Finset.prod_congr rfl
    intro i hi
    rw [List.getD_append _ _ _ _ (Finset.mem_range.mp hi)]
  rw [hprod]
  simp [fac]

/-- The whole-`n` vector's term is `f[0] · g[n−1]`: the `n!` and the
`1/n!` of the part-value-`n` slot cancel. -/
theorem term_whole (f g : List ℚ) {n : ℕ} (hn : 1 ≤ n) :
    term f g n (List.replicate (n - 1) 0 ++ [1]) = f.getD 0 0 * g.getD (n - 1) 0 := by
  rw [term_eq_fdbTerm]
  unfold fdbTerm
  have hsum : (List.replicate (n - 1) (0 : ℕ) ++ [1]).sum = 1 := by simp
  have hlen : (List.replicate (n - 1) (0 : ℕ) ++ [1]).length = n := by
    simp
    omega
  rw [hsum, hlen]
  have hlastD : (List.replicate (n - 1) (0 : ℕ) ++ [1]).getD (n - 1) 0 = 1 := by
    rw [List.getD_append_right _ _ _ _ (by simp)]
    simp
  have hprod : ∏ i ∈ Finset.range n,
      ((g.getD i 0) ^ ((List.replicate (n - 1) 0 ++ [1]).getD i 0) /
        (fac ((List.replicate (n - 1) 0 ++ [1]).getD i 0) : ℚ) /
        ((fac (1 + i) : ℚ)) ^ ((List.replicate (n - 1) 0 ++ [1]).getD i 0)) =
      g.getD (n - 1) 0 / (fac n : ℚ) := by
    rw [Finset.prod_eq_single (n - 1)]
    · rw [hlastD]
      have h1n : 1 + (n - 1) = n := by omega
      rw [h1n]
      simp [fac]
    · intro i hi hne
      have hi' : i < n := Finset.mem_range.mp hi
      have hiD : (List.replicate (n - 1) (0 : ℕ) ++ [1]).getD i 0 = 0 := by
        rw [List.getD_append _ _ _ _ (by simp; omega)]
        simp
      rw [hiD]
      simp [fac]
    · intro hmem
      exact absurd (Finset.mem_range.mpr (by omega)) hmem
  rw [hprod]
  have hfac : (fac n : ℚ) ≠ 0 := by
    simp [fac]
    exact Nat.factorial_ne_zero n
  field_simp
  ring

/-- The `n`-th accumulated sum of the composition of `f` with its solved
inverse: `1` at order `1`, `0` at every higher order. -/
theorem sum_partcounts_inverse (f : List ℚ) (hf0 : f.getD 0 0 ≠ 0) {N : ℕ}
    (hN1 : 1 ≤ N) {n : ℕ} (h1 : 1 ≤ n) (h2 : n ≤ N) :
    ((partcounts n).map (term f (invG f (N - 1)) n)).sum =
      if n = 1 then 1 else 0 := by
  rw [partcounts_tail_eq h1, List.map_cons, List.sum_cons, List.map_map]
  rw [term_whole f _ h1]
  have hmap : (tayparts n).map (term f (invG f (N - 1)) n ∘ fun p => p ++ [0]) =
      (tayparts n).map (term f (invG f (n - 2)) n) := by
    apply List.map_congr_left
    intro q hq
    show term f (invG f (N - 1)) n (q ++ [0]) = _
    rw [term_append_zero]
    apply term_congr_g
    intro i hi
    have hqlen : q.length = n - 1 := mem_tayparts_length hq
    exact invG_stable f (n - 2) (N - 1) (by omega) i (by omega)
  rw [hmap]
  rcases eq_or_lt_of_le h1 with h1' | h2'
  · -- order 1: the loop part is empty and f[0] · (1/f[0]) = 1
    have hn1 : n = 1 := h1'.symm
    subst hn1
    have htay : tayparts 1 = [] := rfl
    rw [htay]
    have hg0 : (invG f (N - 1)).getD 0 0 = 1 / f.getD 0 0 := by
      rw [invG_stable f 0 (N - 1) (by omega) 0 le_rfl]
      rfl
    rw [hg0]
    simp only [List.map_nil, List.sum_nil, add_zero, if_pos rfl]
    exact mul_one_div_cancel hf0
  · -- order n ≥ 2: the appended entry −S/f[0] cancels the partial sum S
    have hn2 : 2 ≤ n := h2'
    have hgn : (invG f (N - 1)).getD (n - 1) 0 =
        -(invStep f (invG f (n - 2)) n) / f.getD 0 0 := by
      rw [invG_stable f (n - 1) (N - 1) (by omega) (n - 1) le_rfl]
      have hsplit : n - 1 = (n - 2) + 1 := by omega
      rw [hsplit]
      show (invG f (n - 2) ++
        [-(invStep f (invG f (n - 2)) ((n - 2) + 2)) / f.getD 0 0]).getD ((n - 2) + 1) 0 = _
      rw [List.getD_append_right _ _ _ _ (by rw [invG_length])]
      rw [invG_length]
      have hidx : (n - 2) + 1 - ((n - 2) + 1) = 0 := by omega
      rw [hidx]
      have hn' : (n - 2) + 2 = n := by omega
      rw [hn']
      rfl
    rw [hgn]
    have hstep : ((tayparts n).map (term f (invG f (n - 2)) n)).sum =
        invStep f (invG f (n - 2)) n := rfl
    rw [hstep]
    have hne : n ≠ 1 := by omega
    rw [if_neg hne]
    have hcancel : f.getD 0 0 * (-(invStep f (invG f (n - 2)) n) / f.getD 0 0) =
        -(invStep f (invG f (n - 2)) n) := by
      rw [mul_div_assoc', mul_comm, mul_div_assoc, div_self hf0, mul_one]
    rw [hcancel]
    ring

/-- C2: for every derivative sequence `f` with `f[0] ≠ 0`, composing `f`
with its computed compositional inverse yields the derivative sequence of
the identity: `faadibruno f (_taylor_inverse f) = [1, 0, ..., 0]` of
length `len f`, exactly over the exact field `ℚ`. -/
theorem faadibruno_taylor_inverse_identity (f : List ℚ) (hne : f ≠ [])
    (hf0 : f.getD 0 0 ≠ 0) :
    faadibruno f (_taylor_inverse f) = 1 :: List.replicate (f.length - 1) 0 := by
  have hN : 1 ≤ f.length := by
    cases f with
    | nil => exact absurd rfl hne
    | cons a l => simp
  rw [taylor_inverse_eq_invG f hN]
  apply List.ext_getElem
  · rw [faadibruno_length]
    simp
    omega
  · intro j hj₁ hj₂
    have hj : j < f.length := by
      rw [faadibruno_length] at hj₁
      exact hj₁
    rw [← List.getD_eq_getElem _ 0 hj₁]
    have hgetD := faadibruno_getD (f := f) (g := invG f (f.length - 1))
      (n := j + 1) (by omega) (by omega)
    have hjj : j + 1 - 1 = j := by omega
    rw [hjj] at hgetD
    rw [hgetD]
    rw [sum_partcounts_inverse f hf0 hN (by omega) (by omega)]
    cases j with
    | zero => simp
    | succ j =>
      have hne1 : j + 1 + 1 ≠ 1 := by omega
      rw [if_neg hne1]
      rw [List.getElem_cons_succ]
      rw [List.getElem_replicate]

/-- Witness for C2 at `f = [2, 1]`. -/
theorem faadibruno_taylor_inverse_identity_witness :
    ([2, 1] : List ℚ) ≠ [] ∧ ([2, 1] : List ℚ).getD 0 0 ≠ 0 ∧
    faadibruno [2, 1] (_taylor_inverse [2, 1]) = 1 :: List.replicate 1 0 :=
  ⟨by simp, by norm_num,
    faadibruno_taylor_inverse_identity [2, 1] (by simp) (by norm_num)⟩

end Faadibruno
